import Mathlib

/-!
Verification of the T212 portfolio-analytics batch fetcher
(`src/stock_info.py`, extended variant with HTTPError classification and
dividend augmentation).

The script is embedded shallowly:

* A Python `dict` is an insertion-ordered association list
  (`dictInsert` replaces the value of the first matching key in place and
  appends fresh keys at the end, exactly as Python assignment does).
* The external provider (`yf.Ticker(symbol, session).info` and
  `ticker.dividends`) is an oracle: each worker occurrence receives a
  `ProviderResponse`, whose fields are `Except`-valued to model calls that
  may raise.  `Exc` covers the two classes the script distinguishes:
  `HTTPError` and every other `Exception`.
* The body of the `try:` block of `fetch_info` is `tryBlock`; the whole
  function with its two `except` clauses is `fetch_info`.
* The lock serialises the map writes, so a complete run is determined by
  the order in which workers acquire the lock: `runSchedule` folds the
  writes over that order.  A finer interleaving semantics (`WStep`) with
  explicit lock acquisition is used for the concurrency claims.
* Machine floats are out of scope; dividend amounts are `Rat` and the
  `float(amount)` conversion is the identity embedding into that type.
* JSON serialisation itself (`json.dumps`) is delegated to the standard
  library by the script and is out of scope; "reaching serialisation"
  means the result map is produced without an uncaught exception.
-/

/-- An exception value raised by a provider call: either a transport-level
`HTTPError` (caught by the first `except` clause of `fetch_info`) or any
other `Exception` (caught by the second clause).  The payload is the
string `str(e)`. -/
inductive Exc where
  | httpError (msg : String)
  | other (msg : String)
deriving DecidableEq

/-- Python `str(e)`: the message carried by the exception. -/
def Exc.str : Exc → String
  | Exc.httpError m => m
  | Exc.other m => m

/-- The message stored under the "error" key by the two `except` clauses:
the text "HTTPError: " followed by `str(e)` for transport failures, and
plain `str(e)` otherwise. -/
def excMessage : Exc → String
  | Exc.httpError m => "HTTPError: " ++ m
  | Exc.other m => m

/-- A JSON-like Python value as stored in the result map: strings, numbers
and string-keyed objects (insertion-ordered). -/
inductive Val where
  | str (s : String)
  | num (q : Rat)
  | obj (fields : List (String × Val))

/-- Python dict assignment `d[k] = v`: replace the value of an existing key
in place, otherwise append the new pair at the end (insertion order). -/
def dictInsert {β : Type} : List (String × β) → String → β → List (String × β)
  | [], k, v => [(k, v)]
  | p :: rest, k, v => if p.1 = k then (k, v) :: rest else p :: dictInsert rest k v

/-- Python dict lookup `d[k]` (as an `Option`). -/
def dictLookup {β : Type} : List (String × β) → String → Option β
  | [], _ => none
  | p :: rest, k => if p.1 = k then some p.2 else dictLookup rest k

/-- The key list of a dict, in insertion order. -/
def dictKeys {β : Type} (m : List (String × β)) : List String := m.map Prod.fst

/-- A pandas timestamp indexing a dividend record; `hour` stands for the
sub-day component that `strftime("%Y-%m-%d")` discards. -/
structure Timestamp where
  year : Nat
  month : Nat
  day : Nat
  hour : Nat
deriving DecidableEq

/-- Zero-pad a number to two digits, as `%m` / `%d` do. -/
def pad2 (n : Nat) : String := if n < 10 then "0" ++ toString n else toString n

/-- Zero-pad a number to four digits, as `%Y` does. -/
def pad4 (n : Nat) : String :=
  if n < 10 then "000" ++ toString n
  else if n < 100 then "00" ++ toString n
  else if n < 1000 then "0" ++ toString n
  else toString n

/-- Python `date.strftime("%Y-%m-%d")`. -/
def Timestamp.strftimeYmd (t : Timestamp) : String :=
  pad4 t.year ++ "-" ++ pad2 t.month ++ "-" ++ pad2 t.day

/-- What the provider does for one worker's calls: the result of
`ticker.info` and the result of `ticker.dividends`, each either a value or
a raised exception. -/
structure ProviderResponse where
  infoResult : Except Exc (List (String × Val))
  divsResult : Except Exc (List (Timestamp × Rat))

/-- pandas `Series.tail(4)`: the last four records, native order kept. -/
def tail4 {α : Type} (xs : List α) : List α := xs.drop (xs.length - 4)

/-- The dict comprehension of line 26 of `stock_info.py`, which maps
`date.strftime` of each record to `float(amount)`: a left fold of dict
assignments over `dividends.items()`, so two records formatting to the
same date string collapse, last amount winning. -/
def dividends_dict (divs : List (Timestamp × Rat)) : List (String × Val) :=
  divs.foldl (fun d p => dictInsert d p.1.strftimeYmd (Val.num p.2)) []

/-- The body of the `try:` block of `fetch_info` (lines 21-32): fetch the
metadata record, fetch the dividend history, build the last-4 dividend
dict and attach it under key "last_4_dividends".  An exception raised by
either provider call aborts the block with that exception. -/
def tryBlock (resp : ProviderResponse) : Except Exc (List (String × Val)) :=
  match resp.infoResult with
  | Except.error e => Except.error e
  | Except.ok info =>
    match resp.divsResult with
    | Except.error e => Except.error e
    | Except.ok divs =>
      Except.ok (dictInsert info "last_4_dividends" (Val.obj (dividends_dict (tail4 divs))))

/-- The outcome `fetch_info` stores for its symbol (lines 19-44): the
augmented metadata record on success, or the one-field error descriptor
built by the matching `except` clause. -/
def fetch_info (resp : ProviderResponse) : List (String × Val) :=
  match tryBlock resp with
  | Except.ok info => info
  | Except.error (Exc.httpError m) => [("error", Val.str ("HTTPError: " ++ m))]
  | Except.error (Exc.other m) => [("error", Val.str m)]

/-- `fetch_info` seen from the caller: an exception not caught by an
`except` clause would surface as `Except.error`.  Both clauses return
normally, so every branch is `Except.ok`. -/
def workerTry (resp : ProviderResponse) : Except Exc (List (String × Val)) :=
  match tryBlock resp with
  | Except.ok info => Except.ok info
  | Except.error (Exc.httpError m) => Except.ok [("error", Val.str ("HTTPError: " ++ m))]
  | Except.error (Exc.other m) => Except.ok [("error", Val.str m)]

/-- One run of the script: the symbol list from `sys.argv[1].split(",")`
and the provider behaviour seen by each worker occurrence (indexed by
position, so duplicate symbols fetch independently). -/
structure Program where
  syms : List String
  oracle : Nat → ProviderResponse

/-- The symbol bound to worker `i`. -/
def symAt (p : Program) (i : Nat) : String := p.syms.getD i ""

/-- The outcome worker `i` computes before taking the lock. -/
def outcomeAt (p : Program) (i : Nat) : List (String × Val) := fetch_info (p.oracle i)

/-- Fold the lock-ordered writes of the workers in `sched` over an initial
map `m`. -/
def runFrom (p : Program) (m : List (String × List (String × Val))) (sched : List Nat) :
    List (String × List (String × Val)) :=
  sched.foldl (fun acc i => dictInsert acc (symAt p i) (outcomeAt p i)) m

/-- The final `results` dict when the workers acquired the lock in the
order `sched` (a complete run has `sched` a permutation of the indices). -/
def runSchedule (p : Program) (sched : List Nat) : List (String × List (String × Val)) :=
  runFrom p [] sched

/-- The run as the caller sees it: a worker exception not converted to
data would escape and abort the run before `print(json.dumps(results))`. -/
def runProgramFrom (p : Program) (m : List (String × List (String × Val))) :
    List Nat → Except Exc (List (String × List (String × Val)))
  | [] => Except.ok m
  | i :: rest =>
    match workerTry (p.oracle i) with
    | Except.ok o => runProgramFrom p (dictInsert m (symAt p i) o) rest
    | Except.error e => Except.error e

/-- The whole run from the empty map. -/
def runProgram (p : Program) (sched : List Nat) :
    Except Exc (List (String × List (String × Val))) :=
  runProgramFrom p [] sched

/-- Python `str.split` with a one-character separator, over char lists:
`"".split(",") = [""]`, and every comma starts a new group. -/
def splitChars : List Char → List (List Char)
  | [] => [[]]
  | c :: cs =>
    if c = ',' then [] :: splitChars cs
    else
      match splitChars cs with
      | [] => [[c]]
      | g :: gs => (c :: g) :: gs

/-- Line 14: `symbols = sys.argv[1].split(",")`. -/
def parseSymbols (arg : String) : List String :=
  (splitChars arg.toList).map (fun l => String.mk l)

/-- A `threading.Thread(target=fetch_info, args=(s,))` object: what matters
for the claims is the symbol it is bound to. -/
structure WorkerThread where
  sym : String

/-- Line 46: one thread per occurrence of a symbol in the input list. -/
def threads (p : Program) : List WorkerThread :=
  p.syms.map (fun s => WorkerThread.mk s)

example : parseSymbols "" = [""] := by decide
example : parseSymbols "AAPL,MSFT" = ["AAPL", "MSFT"] := by decide
example : dictInsert [("a", 1)] "a" 2 = [("a", 2)] := by decide
example : tail4 [1, 2, 3, 4, 5, 6] = [3, 4, 5, 6] := by decide

/-! Dictionary lemmas -/

theorem dictKeys_cons {β : Type} (p : String × β) (rest : List (String × β)) :
    dictKeys (p :: rest) = p.1 :: dictKeys rest := rfl

theorem dictKeys_dictInsert {β : Type} (m : List (String × β)) (k : String) (v : β) :
    dictKeys (dictInsert m k v) =
      if k ∈ dictKeys m then dictKeys m else dictKeys m ++ [k] := by
  induction m with
  | nil => simp [dictInsert, dictKeys]
  | cons p rest ih =>
    by_cases h : p.1 = k
    · have hmem : k ∈ dictKeys (p :: rest) := by
        rw [dictKeys_cons, h]
        exact List.mem_cons_self _ _
      have h1 : dictInsert (p :: rest) k v = (k, v) :: rest := by
        simp [dictInsert, h]
      rw [h1, if_pos hmem, dictKeys_cons, dictKeys_cons, h]
    · have hne : k ≠ p.1 := fun he => h he.symm
      have h1 : dictInsert (p :: rest) k v = p :: dictInsert rest k v := by
        simp [dictInsert, h]
      rw [h1, dictKeys_cons, ih, dictKeys_cons]
      by_cases hm : k ∈ dictKeys rest
      · rw [if_pos hm, if_pos (List.mem_cons_of_mem _ hm)]
      · rw [if_neg hm, if_neg (by simp [List.mem_cons, hm, hne]), List.cons_append]

theorem mem_dictKeys_dictInsert {β : Type} (m : List (String × β)) (k v s) :
    s ∈ dictKeys (dictInsert m k v) ↔ s = k ∨ s ∈ dictKeys m := by
  rw [dictKeys_dictInsert]
  by_cases h : k ∈ dictKeys m
  · rw [if_pos h]
    constructor
    · exact Or.inr
    · rintro (rfl | hs)
      · exact h
      · exact hs
  · rw [if_neg h]
    simp [List.mem_append, or_comm]

theorem nodup_dictKeys_dictInsert {β : Type} (m : List (String × β)) (k v)
    (hn : (dictKeys m).Nodup) : (dictKeys (dictInsert m k v)).Nodup := by
  rw [dictKeys_dictInsert]
  by_cases h : k ∈ dictKeys m
  · rwa [if_pos h]
  · rw [if_neg h]
    refine List.Nodup.append hn (List.nodup_singleton k) ?_
    intro a ha hb
    rw [List.mem_singleton] at hb
    subst hb
    exact h ha

theorem dictLookup_cons {β : Type} (p : String × β) (rest : List (String × β)) (s : String) :
    dictLookup (p :: rest) s = if p.1 = s then some p.2 else dictLookup rest s := rfl

theorem dictLookup_pair_cons {β : Type} (a : String) (b : β) (rest : List (String × β))
    (s : String) :
    dictLookup ((a, b) :: rest) s = if a = s then some b else dictLookup rest s := rfl

theorem dictLookup_dictInsert {β : Type} (m : List (String × β)) (k v s) :
    dictLookup (dictInsert m k v) s = if k = s then some v else dictLookup m s := by
  induction m with
  | nil =>
    rw [show dictInsert ([] : List (String × β)) k v = [(k, v)] from rfl,
      dictLookup_pair_cons]
  | cons p rest ih =>
    by_cases h : p.1 = k
    · have h1 : dictInsert (p :: rest) k v = (k, v) :: rest := by
        simp [dictInsert, h]
      rw [h1, dictLookup_pair_cons k v rest s]
      by_cases hk : k = s
      · rw [if_pos hk, if_pos hk]
      · have hp : ¬ p.1 = s := fun he => hk (h.symm.trans he)
        rw [if_neg hk, if_neg hk, dictLookup_cons p rest s, if_neg hp]
    · have h1 : dictInsert (p :: rest) k v = p :: dictInsert rest k v := by
        simp [dictInsert, h]
      rw [h1, dictLookup_cons p (dictInsert rest k v) s]
      by_cases hp : p.1 = s
      · have hk : ¬ k = s := fun he => h (hp.trans he.symm)
        rw [if_pos hp, if_neg hk, dictLookup_cons p rest s, if_pos hp]
      · rw [if_neg hp, ih]
        by_cases hk : k = s
        · rw [if_pos hk, if_pos hk]
        · rw [if_neg hk, if_neg hk, dictLookup_cons p rest s, if_neg hp]

theorem dictLookup_eq_none_iff {β : Type} (m : List (String × β)) (s : String) :
    dictLookup m s = none ↔ s ∉ dictKeys m := by
  induction m with
  | nil => simp [dictLookup, dictKeys]
  | cons p rest ih =>
    rw [dictKeys_cons, dictLookup_cons]
    by_cases h : p.1 = s
    · rw [if_pos h]
      subst h
      simp [List.mem_cons]
    · have hne : ¬ s = p.1 := fun he => h he.symm
      rw [if_neg h]
      simp [List.mem_cons, hne, ih]

theorem dictInsert_of_not_mem {β : Type} (m : List (String × β)) (k v)
    (h : k ∉ dictKeys m) : dictInsert m k v = m ++ [(k, v)] := by
  induction m with
  | nil => simp [dictInsert]
  | cons p rest ih =>
    rw [dictKeys_cons, List.mem_cons] at h
    push_neg at h
    have hp : ¬ p.1 = k := fun he => h.1 he.symm
    simp [dictInsert, hp, ih h.2]

/-! Lemmas about scheduled runs -/

theorem runFrom_cons (p : Program) (m) (i : Nat) (rest : List Nat) :
    runFrom p m (i :: rest) = runFrom p (dictInsert m (symAt p i) (outcomeAt p i)) rest := rfl

theorem runFrom_append_single (p : Program) (m) (l : List Nat) (i : Nat) :
    runFrom p m (l ++ [i]) = dictInsert (runFrom p m l) (symAt p i) (outcomeAt p i) := by
  simp [runFrom, List.foldl_append]

theorem nodup_dictKeys_runFrom (p : Program) (sched : List Nat) :
    ∀ m, (dictKeys m).Nodup → (dictKeys (runFrom p m sched)).Nodup := by
  induction sched with
  | nil => intro m hm; simpa [runFrom] using hm
  | cons i rest ih =>
    intro m hm
    rw [runFrom_cons]
    exact ih _ (nodup_dictKeys_dictInsert _ _ _ hm)

theorem mem_dictKeys_runFrom (p : Program) (sched : List Nat) (s : String) :
    ∀ m, s ∈ dictKeys (runFrom p m sched) ↔ (∃ i ∈ sched, symAt p i = s) ∨ s ∈ dictKeys m := by
  induction sched with
  | nil => intro m; simp [runFrom]
  | cons i rest ih =>
    intro m
    rw [runFrom_cons, ih]
    rw [mem_dictKeys_dictInsert]
    constructor
    · rintro (h | h | h)
      · rcases h with ⟨j, hj, hsym⟩
        exact Or.inl ⟨j, List.mem_cons_of_mem _ hj, hsym⟩
      · exact Or.inl ⟨i, List.mem_cons_self _ _, h.symm⟩
      · exact Or.inr h
    · rintro (⟨j, hj, hsym⟩ | h)
      · rcases List.mem_cons.mp hj with hji | hjr
        · subst hji
          exact Or.inr (Or.inl hsym.symm)
        · exact Or.inl ⟨j, hjr, hsym⟩
      · exact Or.inr (Or.inr h)

theorem dictLookup_runSchedule (p : Program) (sched : List Nat) (s : String) :
    dictLookup (runSchedule p sched) s =
      ((sched.filter (fun i => symAt p i = s)).getLast?).map (outcomeAt p) := by
  induction sched using List.reverseRecOn with
  | nil => simp [runSchedule, runFrom, dictLookup]
  | append_singleton l i ih =>
    have hrun : runSchedule p (l ++ [i]) =
        dictInsert (runSchedule p l) (symAt p i) (outcomeAt p i) :=
      runFrom_append_single p [] l i
    rw [hrun, dictLookup_dictInsert]
    by_cases hp : symAt p i = s
    · rw [if_pos hp]
      have hf : (l ++ [i]).filter (fun j => decide (symAt p j = s)) =
          l.filter (fun j => decide (symAt p j = s)) ++ [i] := by
        simp [List.filter_append, hp]
      rw [hf, List.getLast?_concat]
      rfl
    · rw [if_neg hp, ih]
      have hf : (l ++ [i]).filter (fun j => decide (symAt p j = s)) =
          l.filter (fun j => decide (symAt p j = s)) := by
        simp [List.filter_append, hp]
      rw [hf]

/-! Interleaving semantics of the worker threads

Each worker's only interaction with shared state is `with lock: results[symbol] = ...`
(lines 31-32, 37-38, 43-44).  A worker therefore takes two observable
steps: acquire the free lock, then write its outcome and release.  The
main flow reads `results` only once every thread has joined. -/

/-- Program counter of one worker thread. -/
inductive Pc where
  | start
  | hasLock
  | done
deriving DecidableEq

/-- Shared state: per-worker program counters, the lock owner, and the
`results` dict. -/
structure CState where
  pcs : Nat → Pc
  lockHolder : Option Nat
  results : List (String × List (String × Val))

/-- Process start: no worker has run, the lock is free, `results` is the
empty dict. -/
def initState : CState :=
  CState.mk (fun _ => Pc.start) none []

/-- One interleaving step: a worker acquires the free lock, or the lock
owner performs its guarded write and releases. -/
inductive WStep (p : Program) : CState → CState → Prop where
  | acquire (s : CState) (i : Nat) (h0 : i < p.syms.length)
      (h1 : s.pcs i = Pc.start) (h2 : s.lockHolder = none) :
      WStep p s (CState.mk (Function.update s.pcs i Pc.hasLock) (some i) s.results)
  | writeRelease (s : CState) (i : Nat) (h0 : i < p.syms.length)
      (h1 : s.pcs i = Pc.hasLock) (h2 : s.lockHolder = some i) :
      WStep p s (CState.mk (Function.update s.pcs i Pc.done) none
        (dictInsert s.results (symAt p i) (outcomeAt p i)))

/-- States reachable from process start. -/
def Reachable (p : Program) (s : CState) : Prop :=
  Relation.ReflTransGen (WStep p) initState s

/-- The lock invariant: a worker sits between acquire and release exactly
when it owns the lock. -/
def LockInv (s : CState) : Prop :=
  ∀ i, s.pcs i = Pc.hasLock ↔ s.lockHolder = some i

theorem lockInv_init : LockInv initState := by
  intro i
  constructor
  · intro h
    exact absurd h (by simp [initState])
  · intro h
    exact absurd h (by simp [initState])

theorem lockInv_step {p : Program} {s s' : CState} (hs : LockInv s) (hstep : WStep p s s') :
    LockInv s' := by
  cases hstep with
  | acquire i h0 h1 h2 =>
    intro j
    constructor
    · intro hj
      by_cases hij : j = i
      · subst hij
        rfl
      · rw [show (CState.mk (Function.update s.pcs i Pc.hasLock) (some i) s.results).pcs j
            = Function.update s.pcs i Pc.hasLock j from rfl, Function.update_noteq hij] at hj
        have hcontra := (hs j).mp hj
        rw [h2] at hcontra
        exact absurd hcontra (by simp)
    · intro hj
      simp only [Option.some.injEq] at hj
      subst hj
      show Function.update s.pcs i Pc.hasLock i = Pc.hasLock
      rw [Function.update_same]
  | writeRelease i h0 h1 h2 =>
    intro j
    constructor
    · intro hj
      by_cases hij : j = i
      · subst hij
        rw [show (CState.mk (Function.update s.pcs j Pc.done) none
            (dictInsert s.results (symAt p j) (outcomeAt p j))).pcs j
            = Function.update s.pcs j Pc.done j from rfl, Function.update_same] at hj
        exact absurd hj (by simp)
      · rw [show (CState.mk (Function.update s.pcs i Pc.done) none
            (dictInsert s.results (symAt p i) (outcomeAt p i))).pcs j
            = Function.update s.pcs i Pc.done j from rfl, Function.update_noteq hij] at hj
        have hcontra := (hs j).mp hj
        rw [h2] at hcontra
        simp only [Option.some.injEq] at hcontra
        exact absurd hcontra.symm hij
    · intro hj
      exact absurd hj (by simp)

theorem reachable_lockInv {p : Program} {s : CState} (h : Reachable p s) : LockInv s := by
  induction h with
  | refl => exact lockInv_init
  | tail hab hbc ih => exact lockInv_step ih hbc

/-- The schedule invariant: the map always equals the fold of the writes of
the workers that have finished, in the order they wrote. -/
def SchedInv (p : Program) (s : CState) : Prop :=
  ∃ sched : List Nat, sched.Nodup ∧
    (∀ i, i ∈ sched ↔ (i < p.syms.length ∧ s.pcs i = Pc.done)) ∧
    s.results = runSchedule p sched

theorem schedInv_init (p : Program) : SchedInv p initState := by
  refine ⟨[], List.nodup_nil, ?_, rfl⟩
  intro i
  simp [initState]

theorem schedInv_step {p : Program} {s s' : CState} (hs : SchedInv p s)
    (hstep : WStep p s s') : SchedInv p s' := by
  rcases hs with ⟨sched, hnd, hmem, hmap⟩
  cases hstep with
  | acquire i h0 h1 h2 =>
    refine ⟨sched, hnd, ?_, hmap⟩
    intro j
    rw [hmem j]
    show _ ↔ (j < p.syms.length ∧ Function.update s.pcs i Pc.hasLock j = Pc.done)
    by_cases hij : j = i
    · subst hij
      simp [h1, Function.update_same]
    · rw [Function.update_noteq hij]
  | writeRelease i h0 h1 h2 =>
    have hnotin : i ∉ sched := by
      intro hin
      have hd := ((hmem i).mp hin).2
      rw [h1] at hd
      exact absurd hd (by simp)
    refine ⟨sched ++ [i], ?_, ?_, ?_⟩
    · rw [List.nodup_append]
      refine ⟨hnd, List.nodup_singleton i, ?_⟩
      intro a ha hb
      rw [List.mem_singleton] at hb
      subst hb
      exact hnotin ha
    · intro j
      rw [List.mem_append, List.mem_singleton, hmem j]
      show _ ↔ (j < p.syms.length ∧ Function.update s.pcs i Pc.done j = Pc.done)
      by_cases hij : j = i
      · subst hij
        simp [Function.update_same, h0]
      · simp [Function.update_noteq hij, hij]
    · show dictInsert s.results (symAt p i) (outcomeAt p i) = _
      rw [hmap]
      exact (runFrom_append_single p [] sched i).symm

theorem reachable_schedInv {p : Program} {s : CState} (h : Reachable p s) : SchedInv p s := by
  induction h with
  | refl => exact schedInv_init p
  | tail hab hbc ih => exact schedInv_step ih hbc

/-! Helper lemmas about the worker body -/

theorem workerTry_eq_ok (resp : ProviderResponse) :
    workerTry resp = Except.ok (fetch_info resp) := by
  unfold workerTry fetch_info
  cases htb : tryBlock resp with
  | ok info => rfl
  | error e => cases e <;> rfl

theorem tryBlock_ok_inv {resp : ProviderResponse} {r}
    (h : tryBlock resp = Except.ok r) :
    ∃ info divs, resp.infoResult = Except.ok info ∧ resp.divsResult = Except.ok divs ∧
      r = dictInsert info "last_4_dividends" (Val.obj (dividends_dict (tail4 divs))) := by
  unfold tryBlock at h
  cases hi : resp.infoResult with
  | error e => rw [hi] at h; exact absurd h (by simp)
  | ok info =>
    rw [hi] at h
    cases hd : resp.divsResult with
    | error e => rw [hd] at h; exact absurd h (by simp)
    | ok divs =>
      rw [hd] at h
      simp only [Except.ok.injEq] at h
      exact ⟨info, divs, rfl, rfl, h.symm⟩

theorem tryBlock_error_inv {resp : ProviderResponse} {e}
    (h : tryBlock resp = Except.error e) :
    resp.infoResult = Except.error e ∨
      (∃ info, resp.infoResult = Except.ok info ∧ resp.divsResult = Except.error e) := by
  unfold tryBlock at h
  cases hi : resp.infoResult with
  | error e' =>
    rw [hi] at h
    simp only [Except.error.injEq] at h
    exact Or.inl (by rw [h])
  | ok info =>
    rw [hi] at h
    cases hd : resp.divsResult with
    | error e' =>
      rw [hd] at h
      simp only [Except.error.injEq] at h
      exact Or.inr ⟨info, rfl, by rw [h]⟩
    | ok divs =>
      rw [hd] at h
      exact absurd h (by simp)

theorem fetch_info_of_tryBlock_ok {resp : ProviderResponse} {r}
    (h : tryBlock resp = Except.ok r) : fetch_info resp = r := by
  unfold fetch_info
  rw [h]

theorem fetch_info_of_tryBlock_error {resp : ProviderResponse} {e}
    (h : tryBlock resp = Except.error e) :
    fetch_info resp = [("error", Val.str (excMessage e))] := by
  unfold fetch_info
  rw [h]
  cases e <;> rfl

theorem runProgramFrom_eq_ok (p : Program) (sched : List Nat) :
    ∀ m, runProgramFrom p m sched = Except.ok (runFrom p m sched) := by
  induction sched with
  | nil => intro m; rfl
  | cons i rest ih =>
    intro m
    unfold runProgramFrom
    rw [workerTry_eq_ok]
    exact ih _

/-! Helper lemmas about the dividend dict -/

theorem foldl_dictInsert_of_nodup {β : Type} (entries : List (String × β)) :
    ∀ m, (∀ k ∈ dictKeys entries, k ∉ dictKeys m) → (dictKeys entries).Nodup →
      entries.foldl (fun d q => dictInsert d q.1 q.2) m = m ++ entries := by
  induction entries with
  | nil => intro m _ _; simp
  | cons q rest ih =>
    intro m hdis hnd
    rw [dictKeys_cons] at hdis hnd
    have hq : q.1 ∉ dictKeys m := hdis q.1 (List.mem_cons_self _ _)
    have hstep : dictInsert m q.1 q.2 = m ++ [q] := by
      rw [dictInsert_of_not_mem m q.1 q.2 hq]
    rw [List.foldl_cons, hstep, ih (m ++ [q]) ?_ (List.Nodup.of_cons hnd)]
    · rw [List.append_assoc]
      rfl
    · intro k hk
      have hkm : k ∉ dictKeys m := hdis k (List.mem_cons_of_mem _ hk)
      have hkq : k ≠ q.1 := by
        intro he
        subst he
        exact (List.nodup_cons.mp hnd).1 hk
      intro hmem
      rcases List.mem_append.mp (by
        have : dictKeys (m ++ [q]) = dictKeys m ++ dictKeys [q] := by
          simp [dictKeys]
        rw [this] at hmem
        exact hmem) with hin | hin
      · exact hkm hin
      · rw [show dictKeys [q] = [q.1] from rfl, List.mem_singleton] at hin
        exact hkq hin

theorem dividends_dict_of_nodup (divs : List (Timestamp × Rat))
    (hn : (divs.map (fun q => q.1.strftimeYmd)).Nodup) :
    dividends_dict divs = divs.map (fun q => (q.1.strftimeYmd, Val.num q.2)) := by
  unfold dividends_dict
  have hfold : divs.foldl (fun d q => dictInsert d q.1.strftimeYmd (Val.num q.2)) [] =
      (divs.map (fun q => (q.1.strftimeYmd, Val.num q.2))).foldl
        (fun d q => dictInsert d q.1 q.2) [] := by
    rw [List.foldl_map]
  rw [hfold]
  have hkeys : dictKeys (divs.map (fun q => (q.1.strftimeYmd, Val.num q.2))) =
      divs.map (fun q => q.1.strftimeYmd) := by
    simp [dictKeys, List.map_map]
  rw [foldl_dictInsert_of_nodup _ [] ?_ ?_]
  · rw [List.nil_append]
  · intro k _ hk
    simp [dictKeys] at hk
  · rw [hkeys]
    exact hn

theorem length_tail4 {α : Type} (xs : List α) : (tail4 xs).length = min xs.length 4 := by
  unfold tail4
  rw [List.length_drop]
  omega

/-! Membership via positional indexing -/

theorem mem_iff_exists_getD (l : List String) (s : String) :
    s ∈ l ↔ ∃ i, i < l.length ∧ l.getD i "" = s := by
  constructor
  · intro h
    rcases List.mem_iff_get.mp h with ⟨⟨i, hi⟩, hget⟩
    refine ⟨i, hi, ?_⟩
    rw [List.getD_eq_getElem?_getD, List.getElem?_eq_getElem hi]
    simpa using hget
  · rintro ⟨i, hi, hget⟩
    rw [List.getD_eq_getElem?_getD, List.getElem?_eq_getElem hi] at hget
    rw [show (some l[i]).getD "" = l[i] from rfl] at hget
    rw [← hget]
    exact List.getElem_mem hi

/-! Concrete provider responses used by the witnesses -/

/-- A provider response where both calls succeed. -/
def respOk : ProviderResponse :=
  ProviderResponse.mk
    (Except.ok [("shortName", Val.str "Apple Inc.")])
    (Except.ok [(Timestamp.mk 2024 5 10 0, 1), (Timestamp.mk 2024 8 12 0, 1)])

/-- A provider response whose metadata request raises an `HTTPError`. -/
def respHttp : ProviderResponse :=
  ProviderResponse.mk (Except.error (Exc.httpError "404 Client Error")) (Except.ok [])

/-- A provider response where the metadata request succeeds but the
dividend retrieval raises. -/
def respDivFail : ProviderResponse :=
  ProviderResponse.mk (Except.ok [("shortName", Val.str "Apple Inc.")])
    (Except.error (Exc.other "boom"))

/-- A successful provider response with an empty dividend history. -/
def respOkEmptyDivs : ProviderResponse :=
  ProviderResponse.mk (Except.ok [("shortName", Val.str "Apple Inc.")]) (Except.ok [])

/-! Claim theorems -/

/-- C1: for every input sequence of symbols and every provider behaviour,
the run never surfaces a worker exception: both `except` clauses of
`fetch_info` convert the failure of the `try:` body into map data, so the
run always produces the result map (`Except.ok`) that the final
`print(json.dumps(results))` serialises, no matter how many fetches
fail. -/
theorem runProgram_never_raises (p : Program) (sched : List Nat) :
    runProgram p sched = Except.ok (runSchedule p sched) :=
  runProgramFrom_eq_ok p sched []

/-- C9: in the extended variant every successful outcome carries the key
`last_4_dividends` — the field is unconditionally attached (line 29), and
an empty dividend history yields the key mapped to an empty object rather
than an absent field. -/
theorem success_always_has_last4_key (resp : ProviderResponse)
    (info : List (String × Val)) (divs : List (Timestamp × Rat))
    (hinfo : resp.infoResult = Except.ok info)
    (hdivs : resp.divsResult = Except.ok divs) :
    dictLookup (fetch_info resp) "last_4_dividends" =
      some (Val.obj (dividends_dict (tail4 divs))) ∧
    (divs = [] →
      dictLookup (fetch_info resp) "last_4_dividends" = some (Val.obj [])) := by
  have htb : tryBlock resp = Except.ok
      (dictInsert info "last_4_dividends" (Val.obj (dividends_dict (tail4 divs)))) := by
    unfold tryBlock
    rw [hinfo, hdivs]
  have hf := fetch_info_of_tryBlock_ok htb
  constructor
  · rw [hf, dictLookup_dictInsert]
    simp
  · intro hd
    subst hd
    rw [hf, dictLookup_dictInsert]
    simp [tail4, dividends_dict]

theorem success_always_has_last4_key_witness :
    dictLookup (fetch_info respOkEmptyDivs) "last_4_dividends" = some (Val.obj []) :=
  (success_always_has_last4_key respOkEmptyDivs [("shortName", Val.str "Apple Inc.")] []
    rfl rfl).2 rfl

/-- C10: if the metadata request succeeds but the dividend retrieval
raises, the already-fetched metadata is discarded entirely: the whole
`try:` body aborts, the `except` clause runs, and the symbol's outcome is
exactly the one-field error descriptor. -/
theorem no_partial_success_on_dividend_failure (resp : ProviderResponse)
    (info : List (String × Val)) (e : Exc)
    (hinfo : resp.infoResult = Except.ok info)
    (hdivs : resp.divsResult = Except.error e) :
    fetch_info resp = [("error", Val.str (excMessage e))] := by
  have htb : tryBlock resp = Except.error e := by
    unfold tryBlock
    rw [hinfo, hdivs]
  exact fetch_info_of_tryBlock_error htb

theorem no_partial_success_on_dividend_failure_witness :
    fetch_info respDivFail = [("error", Val.str "boom")] :=
  no_partial_success_on_dividend_failure respDivFail
    [("shortName", Val.str "Apple Inc.")] (Exc.other "boom") rfl rfl

/-- C3: the outcome written for a symbol has exactly one of two shapes.
If the `try:` body succeeds the stored value is the augmented metadata
record, which carries no "error" key provided the provider's record does
not itself contain one; if it fails the stored value is exactly
`[("error", m)]` with `m` the stringified exception — prefixed by
"HTTPError: " for transport failures — and `m` is non-empty provided the
provider's non-HTTP exceptions stringify non-empty (an HTTP failure's
message is non-empty by construction). -/
theorem fetch_info_outcome_shapes (resp : ProviderResponse)
    (hclean : ∀ info, resp.infoResult = Except.ok info → "error" ∉ dictKeys info)
    (hne : ∀ m, resp.infoResult = Except.error (Exc.other m) → m ≠ "")
    (hne2 : ∀ m, resp.divsResult = Except.error (Exc.other m) → m ≠ "") :
    (∀ r, tryBlock resp = Except.ok r →
      fetch_info resp = r ∧ "error" ∉ dictKeys r) ∧
    (∀ e, tryBlock resp = Except.error e →
      fetch_info resp = [("error", Val.str (excMessage e))] ∧ excMessage e ≠ "" ∧
        ∀ m0, e = Exc.httpError m0 → excMessage e = "HTTPError: " ++ m0) := by
  constructor
  · intro r htb
    refine ⟨fetch_info_of_tryBlock_ok htb, ?_⟩
    rcases tryBlock_ok_inv htb with ⟨info, divs, hinfo, hdivs, hr⟩
    subst hr
    intro hmem
    rw [mem_dictKeys_dictInsert] at hmem
    rcases hmem with h1 | h1
    · exact absurd h1 (by decide)
    · exact hclean info hinfo h1
  · intro e htb
    refine ⟨fetch_info_of_tryBlock_error htb, ?_, ?_⟩
    · cases e with
      | httpError m =>
        intro hc
        have hc2 : "HTTPError: " ++ m = "" := hc
        have hlen := congrArg String.length hc2
        rw [String.length_append] at hlen
        rw [show ("HTTPError: " : String).length = 11 from rfl,
          show ("" : String).length = 0 from rfl] at hlen
        omega
      | other m =>
        rcases tryBlock_error_inv htb with hi | ⟨info, hinfo, hdivs⟩
        · exact hne m hi
        · exact hne2 m hdivs
    · intro m0 he
      subst he
      rfl

/-- The record `fetch_info` produces for `respOk`. -/
def respOkRecord : List (String × Val) :=
  dictInsert [("shortName", Val.str "Apple Inc.")] "last_4_dividends"
    (Val.obj (dividends_dict (tail4
      [(Timestamp.mk 2024 5 10 0, (1 : Rat)), (Timestamp.mk 2024 8 12 0, 1)])))

theorem fetch_info_outcome_shapes_witness :
    fetch_info respOk = respOkRecord ∧ "error" ∉ dictKeys respOkRecord :=
  (fetch_info_outcome_shapes respOk
    (by
      intro info h
      have h2 : Except.ok ([("shortName", Val.str "Apple Inc.")] : List (String × Val)) =
          Except.ok info := h
      injection h2 with h'
      subst h'
      decide)
    (by
      intro m h
      exact absurd h (by simp [respOk]))
    (by
      intro m h
      exact absurd h (by simp [respOk]))).1 respOkRecord rfl

/-- Two dividend records on the same calendar day (distinct sub-day
timestamps, as a pandas index permits): the dict comprehension collapses
them to one key. -/
def cexHist : List (Timestamp × Rat) :=
  [(Timestamp.mk 2024 1 2 9, 1), (Timestamp.mk 2024 1 2 15, 2)]

/-- C5 counterexample: the claim "when the underlying history has fewer
than 4 records the field contains exactly that many entries" fails on the
code at `cexHist`: the history has 2 records (fewer than 4), but both
format to the date string "2024-01-02", so the comprehension's dict keeps
a single entry. -/
theorem dividends_count_counterexample :
    cexHist.length = 2 ∧ cexHist.length < 4 ∧
      (dividends_dict (tail4 cexHist)).length = 1 ∧
      (dividends_dict (tail4 cexHist)).length ≠ cexHist.length := by
  refine ⟨rfl, by decide, ?_, ?_⟩
  · decide
  · decide

/-- C5 amended: for every successfully fetched symbol, provided the
formatted date strings of the last-4 records are pairwise distinct (the
collapse in `dividends_count_counterexample` cannot happen),
`last_4_dividends` is built from the last 4 entries of the history in
native order, maps each date formatted as `YYYY-MM-DD` to the numeric
amount, has at most 4 entries, and has exactly `min (length) 4` entries —
in particular exactly as many entries as a history shorter than 4. -/
theorem dividends_last4_amended (h : List (Timestamp × Rat))
    (hn : ((tail4 h).map (fun q => q.1.strftimeYmd)).Nodup) :
    dividends_dict (tail4 h) = (tail4 h).map (fun q => (q.1.strftimeYmd, Val.num q.2)) ∧
    (dividends_dict (tail4 h)).length ≤ 4 ∧
    (dividends_dict (tail4 h)).length = min h.length 4 ∧
    (h.length < 4 → (dividends_dict (tail4 h)).length = h.length) := by
  have heq := dividends_dict_of_nodup (tail4 h) hn
  refine ⟨heq, ?_, ?_, ?_⟩
  · rw [heq, List.length_map, length_tail4]
    omega
  · rw [heq, List.length_map, length_tail4]
  · intro hlt
    rw [heq, List.length_map, length_tail4]
    omega

/-- A three-record dividend history with pairwise distinct dates. -/
def histW : List (Timestamp × Rat) :=
  [(Timestamp.mk 2024 1 2 0, 1), (Timestamp.mk 2024 4 2 0, 1), (Timestamp.mk 2024 7 2 0, 1)]

theorem dividends_last4_amended_witness :
    (((tail4 histW).map (fun q => q.1.strftimeYmd)).Nodup ∧ histW.length < 4) ∧
      (dividends_dict (tail4 histW)).length = histW.length :=
  ⟨⟨by decide, by decide⟩,
    (dividends_last4_amended histW (by decide)).2.2.2 (by decide)⟩

/-- C6: line 46 creates exactly one thread per occurrence of a symbol in
the input (duplicates included), each bound to that occurrence; duplicate
occurrences fetch independently but write to the same key, so for every
lock order the final dict has at most one entry per symbol and its value
is the outcome of the last worker to acquire the lock. -/
theorem one_thread_per_occurrence_last_writer_wins (p : Program) :
    (threads p).length = p.syms.length ∧
    (∀ i, (threads p).get? i = (p.syms.get? i).map (fun s => WorkerThread.mk s)) ∧
    (∀ sched : List Nat, ∀ s : String,
      (dictKeys (runSchedule p sched)).count s ≤ 1) ∧
    (∀ sched : List Nat, ∀ s : String,
      dictLookup (runSchedule p sched) s =
        ((sched.filter (fun i => symAt p i = s)).getLast?).map (outcomeAt p)) := by
  refine ⟨?_, ?_, ?_, ?_⟩
  · simp [threads]
  · intro i
    simp [threads, List.get?_map]
  · intro sched s
    have hnd : (dictKeys (runSchedule p sched)).Nodup :=
      nodup_dictKeys_runFrom p sched [] List.nodup_nil
    exact List.nodup_iff_count_le_one.mp hnd s
  · intro sched s
    exact dictLookup_runSchedule p sched s

theorem mem_of_getLast?_eq_some {α : Type} {l : List α} {a : α}
    (h : l.getLast? = some a) : a ∈ l := by
  induction l with
  | nil => exact absurd h (by simp)
  | cons b t ih =>
    cases t with
    | nil =>
      rw [show ([b] : List α).getLast? = some b from rfl] at h
      injection h with h'
      subst h'
      exact List.mem_cons_self _ _
    | cons c t2 =>
      rw [List.getLast?_cons_cons] at h
      exact List.mem_cons_of_mem _ (ih h)

/-- C4: failure isolation as a two-run statement.  Run the same symbol
list against two provider behaviours that may differ only on the workers
bound to one target symbol `t` (for instance, forcing `t`'s fetch to
fail).  For the same lock order, the entry of every other symbol is
unchanged: a symbol's outcome depends only on its own workers' fetches. -/
theorem failure_isolation_two_run (syms : List String) (o1 o2 : Nat → ProviderResponse)
    (t : String) (sched : List Nat)
    (hagree : ∀ i, i < syms.length → syms.getD i "" ≠ t → o1 i = o2 i)
    (hsched : ∀ i ∈ sched, i < syms.length)
    (s : String) (hst : s ≠ t) :
    dictLookup (runSchedule (Program.mk syms o1) sched) s =
      dictLookup (runSchedule (Program.mk syms o2) sched) s := by
  rw [dictLookup_runSchedule, dictLookup_runSchedule]
  have hfilt : sched.filter (fun i => symAt (Program.mk syms o2) i = s) =
      sched.filter (fun i => symAt (Program.mk syms o1) i = s) := rfl
  rw [hfilt]
  cases hlast : (sched.filter (fun i => symAt (Program.mk syms o1) i = s)).getLast? with
  | none => rfl
  | some j =>
    have hjmem : j ∈ sched.filter (fun i => symAt (Program.mk syms o1) i = s) :=
      mem_of_getLast?_eq_some hlast
    have hjs : symAt (Program.mk syms o1) j = s :=
      of_decide_eq_true (List.mem_filter.mp hjmem).2
    have hjsched : j ∈ sched := (List.mem_filter.mp hjmem).1
    have hlt : j < syms.length := hsched j hjsched
    have hne : syms.getD j "" ≠ t := by
      rw [show syms.getD j "" = symAt (Program.mk syms o1) j from rfl, hjs]
      exact hst
    have ho : o1 j = o2 j := hagree j hlt hne
    simp only [Option.map_some']
    rw [show outcomeAt (Program.mk syms o1) j = fetch_info (o1 j) from rfl,
      show outcomeAt (Program.mk syms o2) j = fetch_info (o2 j) from rfl, ho]

/-- Provider behaviour where every worker succeeds. -/
def oracleAllOk : Nat → ProviderResponse := fun _ => respOk

/-- Provider behaviour where worker 1 (the "MSFT" occurrence) fails with
an HTTP error and every other worker succeeds. -/
def oracleMsftFails : Nat → ProviderResponse := fun i => if i = 1 then respHttp else respOk

theorem failure_isolation_two_run_witness :
    dictLookup (runSchedule (Program.mk ["AAPL", "MSFT"] oracleAllOk) [0, 1]) "AAPL" =
      dictLookup (runSchedule (Program.mk ["AAPL", "MSFT"] oracleMsftFails) [0, 1]) "AAPL" :=
  failure_isolation_two_run ["AAPL", "MSFT"] oracleAllOk oracleMsftFails "MSFT" [0, 1]
    (by
      intro i hlt hne
      have hlt2 : i < 2 := hlt
      interval_cases i
      · rfl
      · exact absurd rfl hne)
    (by
      intro i hi
      fin_cases hi <;> decide)
    "AAPL" (by decide)

/-- C2: in every reachable state in which all workers have joined, the
key list of `results` has no duplicates and its key set is exactly the
set of input symbols — for every non-empty input, regardless of
duplicates and regardless of which fetches succeeded. -/
theorem resultMap_keys_eq_distinct_symbols (p : Program) (s : CState)
    (hreach : Reachable p s)
    (hdone : ∀ i, i < p.syms.length → s.pcs i = Pc.done)
    (hne : p.syms ≠ []) :
    (dictKeys s.results).Nodup ∧
    ∀ str, str ∈ dictKeys s.results ↔ str ∈ p.syms := by
  rcases reachable_schedInv hreach with ⟨sched, hnd, hmem, hmap⟩
  constructor
  · rw [hmap]
    exact nodup_dictKeys_runFrom p sched [] List.nodup_nil
  · intro str
    rw [hmap]
    rw [show runSchedule p sched = runFrom p [] sched from rfl, mem_dictKeys_runFrom]
    constructor
    · rintro (⟨i, hi, hsym⟩ | habs)
      · have hlt : i < p.syms.length := ((hmem i).mp hi).1
        exact (mem_iff_exists_getD p.syms str).mpr ⟨i, hlt, hsym⟩
      · exact absurd habs (by simp [dictKeys])
    · intro hstr
      rcases (mem_iff_exists_getD p.syms str).mp hstr with ⟨i, hlt, hget⟩
      exact Or.inl ⟨i, (hmem i).mpr ⟨hlt, hdone i hlt⟩, hget⟩

/-- The single-symbol program used by the concrete executions below. -/
def pW : Program := Program.mk ["AAPL"] (fun _ => respOk)

/-- State after worker 0 acquires the lock. -/
def sW1 : CState :=
  CState.mk (Function.update (fun _ => Pc.start) 0 Pc.hasLock) (some 0) []

/-- State after worker 0 writes its outcome and releases the lock. -/
def sW2 : CState :=
  CState.mk (Function.update (Function.update (fun _ => Pc.start) 0 Pc.hasLock) 0 Pc.done)
    none (dictInsert [] (symAt pW 0) (outcomeAt pW 0))

theorem reachable_sW2 : Reachable pW sW2 := by
  have h1 : WStep pW initState sW1 :=
    WStep.acquire initState 0 (by decide) rfl rfl
  have h2 : WStep pW sW1 sW2 :=
    WStep.writeRelease sW1 0 (by decide) rfl rfl
  exact Relation.ReflTransGen.tail (Relation.ReflTransGen.single h1) h2

theorem resultMap_keys_eq_distinct_symbols_witness :
    (dictKeys sW2.results).Nodup ∧ ("AAPL" ∈ dictKeys sW2.results ↔ "AAPL" ∈ pW.syms) := by
  have h := resultMap_keys_eq_distinct_symbols pW sW2 reachable_sW2
    (by
      intro i hi
      rw [show pW.syms.length = 1 from rfl] at hi
      have hz : i = 0 := by omega
      subst hz
      rfl)
    (by simp [pW])
  exact ⟨h.1, h.2 "AAPL"⟩

/-- C7: lock discipline.  (1) Any step that changes the `results` map is
taken by a worker that holds the lock and sits inside the critical
section; (2) in every reachable state at most one worker is inside the
critical section (mutual exclusion); (3) once all workers are done —
which is when the main flow, having joined them, reads the map — no step
is possible at all, so the final read races with no write. -/
theorem lock_discipline_no_race (p : Program) :
    (∀ s s', WStep p s s' → s.results ≠ s'.results →
      ∃ i, s.lockHolder = some i ∧ s.pcs i = Pc.hasLock) ∧
    (∀ s, Reachable p s →
      ∀ i j, s.pcs i = Pc.hasLock → s.pcs j = Pc.hasLock → i = j) ∧
    (∀ s, (∀ i, i < p.syms.length → s.pcs i = Pc.done) → ∀ s', ¬ WStep p s s') := by
  refine ⟨?_, ?_, ?_⟩
  · intro s s' hstep hch
    cases hstep with
    | acquire i h0 h1 h2 => exact absurd rfl hch
    | writeRelease i h0 h1 h2 => exact ⟨i, h2, h1⟩
  · intro s hreach i j hi hj
    have hinv := reachable_lockInv hreach
    have h1 := (hinv i).mp hi
    have h2 := (hinv j).mp hj
    rw [h1] at h2
    exact Option.some.inj h2
  · intro s hdone s' hstep
    cases hstep with
    | acquire i h0 h1 h2 =>
      have hd := hdone i h0
      rw [h1] at hd
      exact Pc.noConfusion hd
    | writeRelease i h0 h1 h2 =>
      have hd := hdone i h0
      rw [h1] at hd
      exact Pc.noConfusion hd

/-- A state in which every worker of `pW` has joined. -/
def sDoneW : CState :=
  CState.mk (fun _ => Pc.done) none (dictInsert [] (symAt pW 0) (outcomeAt pW 0))

theorem lock_discipline_no_race_witness : ¬ WStep pW sDoneW initState :=
  (lock_discipline_no_race pW).2.2 sDoneW (fun _ _ => rfl) initState

/-- C8: with the empty string as argument, `split(",")` yields exactly
one empty-string symbol, and — since the provider raises on the empty
symbol — the complete run ends with a single entry mapping the empty
string to the error descriptor; the output is never anything else (in
particular the empty-object alternative the spec leaves open never occurs
under a failing fetch). -/
theorem empty_arg_single_empty_symbol (o : Nat → ProviderResponse) (e : Exc)
    (hfail : tryBlock (o 0) = Except.error e) (sched : List Nat)
    (hperm : sched.Perm (List.range (parseSymbols "").length)) :
    parseSymbols "" = [""] ∧
    runSchedule (Program.mk (parseSymbols "") o) sched =
      [("", [("error", Val.str (excMessage e))])] := by
  have hparse : parseSymbols "" = [""] := by decide
  refine ⟨hparse, ?_⟩
  have hlen : (parseSymbols "").length = 1 := by rw [hparse]; rfl
  rw [hlen] at hperm
  rw [show List.range 1 = [0] from rfl] at hperm
  have hsched : sched = [0] := List.perm_singleton.mp hperm
  subst hsched
  show runFrom (Program.mk (parseSymbols "") o) [] [0] = _
  rw [runFrom_cons]
  show dictInsert [] (symAt (Program.mk (parseSymbols "") o) 0)
      (outcomeAt (Program.mk (parseSymbols "") o) 0) = _
  have hsym : symAt (Program.mk (parseSymbols "") o) 0 = "" := by
    rw [show symAt (Program.mk (parseSymbols "") o) 0 = (parseSymbols "").getD 0 "" from rfl,
      hparse]
    rfl
  have hout : outcomeAt (Program.mk (parseSymbols "") o) 0 =
      [("error", Val.str (excMessage e))] :=
    fetch_info_of_tryBlock_error hfail
  rw [hsym, hout]
  rfl

theorem empty_arg_single_empty_symbol_witness :
    parseSymbols "" = [""] ∧
    runSchedule (Program.mk (parseSymbols "") (fun _ => respHttp)) [0] =
      [("", [("error", Val.str (excMessage (Exc.httpError "404 Client Error")))])] :=
  empty_arg_single_empty_symbol (fun _ => respHttp) (Exc.httpError "404 Client Error")
    rfl [0] (by decide)
